import Mathlib

/-!
Verification of the WeasyPrint text-drawing core (`weasyprint/draw/text.py`)
and the PDF/A finalizer (`weasyprint/pdf/pdfa.py`).

Shallow embedding conventions:
* Python floats are modelled as exact rationals (`ℚ`); Pango integer
  quantities (glyph advances, offsets, logical rects, in Pango units of
  1/1024 device unit) are `ℤ`.
* Python `round` (banker's rounding, half to even) is `pyround`; Python
  `int()` applied to a float (truncation toward zero) is `pytrunc`.
* The content-stream collaborator (`pydyf` stream) is modelled by an
  ordered list of emitted operator values (`Op`).  The show-string built
  by the encoder via f-string concatenation is modelled at token level
  (`Tok`): `<` and `>` brackets, hex glyph codes, and bare numbers; the
  decimal rendering of numbers is abstracted (numbers kept as `ℚ`).
* Python exceptions that can escape `draw_first_line` (malformed image
  blobs raising in `PIL.Image.open` / `ElementTree.fromstring`, a zero
  image dimension raising `ZeroDivisionError`, a missing cache entry
  raising `KeyError`) are modelled with `Except Unit`.
* External collaborators (Pango shaping, HarfBuzz blob lookup, image
  decoders) are inputs: a run arrives as the list of its glyph records
  together with the blob-lookup results for each glyph.
-/
/-- PANGO_GLYPH_EMPTY, the "no visible glyph" sentinel (0x0FFFFFFF). -/
def PANGO_GLYPH_EMPTY : ℕ := 0x0FFFFFFF

/-- PANGO_GLYPH_UNKNOWN_FLAG (0x10000000), flags an unknown glyph. -/
def PANGO_GLYPH_UNKNOWN_FLAG : ℕ := 0x10000000

/-- Test of `glyph == pango.PANGO_GLYPH_EMPTY or glyph & pango.PANGO_GLYPH_UNKNOWN_FLAG`
(text.py lines 165-166). -/
def isSentinel (g : ℕ) : Bool :=
  (g == PANGO_GLYPH_EMPTY) || (g.land PANGO_GLYPH_UNKNOWN_FLAG != 0)

/-- Pango's `units_to_double`: Pango units are 1024ths (PANGO_SCALE). -/
def units_to_double (u : ℚ) : ℚ := u / 1024

/-- Python 3 `round` on a real value: round half to even. -/
def pyround (q : ℚ) : ℤ :=
  let n := ⌊q⌋
  let r := q - (n : ℚ)
  if r < 1/2 then n
  else if 1/2 < r then n + 1
  else if n % 2 = 0 then n else n + 1

/-- Python `int()` on a real value: truncation toward zero. -/
def pytrunc (q : ℚ) : ℤ := if 0 ≤ q then ⌊q⌋ else ⌈q⌉

/-- Tokens of the show-operator string built by the encoder:
`<` / `>` brackets, a glyph code (2 hex digits when the font is a
fixed-size bitmap font, else 4), and a bare signed number. -/
inductive Tok where
  | lt : Tok
  | gt : Tok
  | hex (glyph : ℕ) (bitmap : Bool) : Tok
  | num (q : ℚ) : Tok
deriving DecidableEq, Repr

/-- RGBA color, as the 4-tuple `textbox.style['color']`. -/
structure RGBA where
  r : ℚ
  g : ℚ
  b : ℚ
  a : ℚ
deriving DecidableEq, Repr, Inhabited

/-- Operators emitted to the pydyf stream by the text-drawing core. -/
inductive Op where
  | showText (toks : List Tok)
  | setFontSize (hash : ℕ) (size : ℚ)
  | setTextRise (v : ℚ)
  | setTextMatrix (vals : List ℚ)
  | setColorRGB (r g b : ℚ)
  | setAlpha (a : ℚ)
  | beginText
  | endText
  | line (x1 y1 x2 y2 thickness : ℚ) (style : String) (color : RGBA) (offsetX : ℚ)
  | pushState
  | popState
  | transform (a b c d e f : ℚ)
  | drawImage (fontHash glyph : ℕ) (size : ℚ)
deriving DecidableEq, Repr

/-- Whether an operator is a show-text operator. -/
def Op.isShow : Op → Bool
  | Op.showText _ => true
  | _ => false

/-- An EmojiDescriptor: one entry `[image, font, a, d, e, f]` of the
`emojis` list built by `draw_first_line`.  The image object is
identified by `(fontHash, glyph)`. -/
structure Emoji where
  fontHash : ℕ
  glyph : ℕ
  a : ℚ
  d : ℚ
  e : ℚ
  f : ℚ
deriving DecidableEq, Repr

/-- Result of fetching and decoding an embedded color-glyph blob:
`ok w h` is a blob the decoder accepts (with pixel dimensions for the
raster case; decoders only produce positive dimensions), `bad` is a
malformed blob on which `PIL.Image.open` / `ElementTree.fromstring`
raises. -/
inductive Blob where
  | ok (w h : ℕ) : Blob
  | bad : Blob
deriving DecidableEq, Repr

/-- Static data of a FontResource as returned by `stream.add_font`:
identity hash and the {bitmap, svg, png} flags plus units-per-em. -/
structure FontInfo where
  hash : ℕ
  bitmap : Bool
  svg : Bool
  png : Bool
  upem : ℚ
deriving Repr

/-- One Pango `GlyphInfo` of a run, together with the answers the
external collaborators would give for it: the logical rect that
`pango_font_get_glyph_extents` fills in, and the embedded color blobs
`get_hb_object_data` returns for the 'svg'/'png' tables (`none` = no
blob). -/
structure GlyphIn where
  glyph : ℕ
  width : ℤ
  x_offset : ℤ
  y_offset : ℤ
  logical_width : ℤ
  logical_y : ℤ
  logical_height : ℤ
  svgData : Option Blob
  pngData : Option Blob
deriving Repr

/-- The two monotone per-font caches owned by FontResources, keyed by
font hash then glyph id.  `cmap` values are UTF-8 byte slices. -/
structure FontCaches where
  widths : ℕ → ℕ → Option ℤ
  cmap : ℕ → ℕ → Option (List ℕ)

instance : Inhabited FontCaches := ⟨⟨fun _ _ => none, fun _ _ => none⟩⟩

/-- Caches with no entries. -/
def emptyCaches : FontCaches := ⟨fun _ _ => none, fun _ _ => none⟩

/-- Insert a width entry (`font.widths[glyph] = v`). -/
def cacheWidth (c : FontCaches) (h g : ℕ) (v : ℤ) : FontCaches :=
  { c with widths := fun h' g' => if h' = h ∧ g' = g then some v else c.widths h' g' }

/-- Insert a cmap entry (`font.cmap[glyph] = s`). -/
def cacheCmap (c : FontCaches) (h g : ℕ) (s : List ℕ) : FontCaches :=
  { c with cmap := fun h' g' => if h' = h ∧ g' = g then some s else c.cmap h' g' }

/-- State of `draw_first_line`'s run-walking loop. -/
structure EncState where
  string : List Tok
  last_font : Option ℕ
  x_advance : ℚ
  previous_utf8_position : ℕ
  caches : FontCaches
  ops : List Op
  emojis : List Emoji

instance : Inhabited EncState :=
  ⟨⟨[], none, 0, 0, default, [], []⟩⟩

/-- One run of the shaped line: its font, glyphs, and the source-text
byte offset, byte length and per-glyph cluster indices used to compute
UTF-8 positions. -/
structure RunIn where
  font : FontInfo
  glyphs : List GlyphIn
  offset : ℕ
  length : ℕ
  clusters : List ℕ
deriving Repr

/-- The cached width computed on first sight of a glyph (text.py lines
196-198): `int(round(units_to_double(logical_rect.width * 1000) / font_size))`. -/
def widthCacheValue (fs : ℚ) (lw : ℤ) : ℤ :=
  pyround (units_to_double ((lw : ℚ) * 1000) / fs)

/-- Raw shaped advance converted to per-mille units:
`units_to_double(width * 1000) / font_size`. -/
def rawAdvancePm (fs : ℚ) (gw : ℤ) : ℚ := units_to_double ((gw : ℚ) * 1000) / fs

/-- The kerning correction (text.py lines 201-202):
`int(font.widths[glyph] - units_to_double(width * 1000) / font_size + offset)`. -/
def glyphKerning (fs : ℚ) (w : ℤ) (gw xo : ℤ) : ℤ :=
  pytrunc ((w : ℚ) - rawAdvancePm fs gw + (xo : ℚ) / fs)

/-- Closing of the pending string before a rise glyph (and at run end):
`if string[-1] == '<': string = string[:-1] else: string += '>'`.
In the Python code the string is never empty at these points (a run
always starts by appending `'<'`); the `none` branch is unreachable. -/
def riseFlush (s : List Tok) : List Tok :=
  if s.getLast? = some Tok.lt then s.dropLast else s ++ [Tok.gt]

/-- Emission for a glyph with nonzero rise (text.py lines 173-186):
flush the pending string, set the rise, show the glyph alone (preceded
by its own offset number when nonzero), reset the rise, restart the
batch. -/
def riseEmit (fs : ℚ) (font : FontInfo) (gi : GlyphIn) (st : EncState) : EncState :=
  let offset : ℚ := (gi.x_offset : ℚ) / fs
  let rise : ℚ := (gi.y_offset : ℚ) / 1000
  { st with
    ops := st.ops ++
      [Op.showText (riseFlush st.string),
       Op.setTextRise (-rise),
       Op.showText ((if offset ≠ 0 then [Tok.num (-offset)] else []) ++
         [Tok.lt, Tok.hex gi.glyph font.bitmap, Tok.gt]),
       Op.setTextRise 0],
    string := [Tok.lt] }

/-- Emission for a zero-rise glyph (text.py lines 187-190): optional
bracketed offset number, then the glyph code appended to the batch. -/
def batchAppend (fs : ℚ) (font : FontInfo) (gi : GlyphIn) (st : EncState) : EncState :=
  let offset : ℚ := (gi.x_offset : ℚ) / fs
  { st with
    string := st.string ++
      (if offset ≠ 0 then [Tok.gt, Tok.num (-offset), Tok.lt] else []) ++
      [Tok.hex gi.glyph font.bitmap] }

/-- The glyph's string/ops emission, split on `if rise:` (line 173). -/
def glyphStringStage (fs : ℚ) (font : FontInfo) (gi : GlyphIn) (st : EncState) : EncState :=
  if (gi.y_offset : ℚ) / 1000 ≠ 0 then riseEmit fs font gi st else batchAppend fs font gi st

/-- Width-cache stage (text.py lines 193-198): on a cache miss compute
the per-mille width from the glyph's logical extents and store it; on a
hit reuse the stored value and leave the cache untouched. -/
def widthStage (fs : ℚ) (font : FontInfo) (gi : GlyphIn) (c : FontCaches) : ℤ × FontCaches :=
  match c.widths font.hash gi.glyph with
  | some w => (w, c)
  | none =>
    (widthCacheValue fs gi.logical_width,
     cacheWidth c font.hash gi.glyph (widthCacheValue fs gi.logical_width))

/-- Cmap stage (text.py lines 207-209): on first sight record the UTF-8
slice spanned by the glyph's cluster. -/
def cmapStage (font : FontInfo) (gi : GlyphIn) (utf8Text : List ℕ) (pos prev : ℕ)
    (c : FontCaches) : FontCaches :=
  match c.cmap font.hash gi.glyph with
  | some _ => c
  | none => cacheCmap c font.hash gi.glyph ((utf8Text.drop prev).take (pos - prev))

/-- Scale factor of an SVG color glyph (text.py line 227):
`font.widths[glyph] / 1000 / font.upem * font_size`. -/
def svgScale (fs : ℚ) (font : FontInfo) (cw : ℤ) : ℚ :=
  (cw : ℚ) / 1000 / font.upem * fs

/-- Vertical pen offset of a raster color glyph (text.py lines 240-242):
`units_to_double(-logical_rect.y - logical_rect.height) / font_size - font_size`. -/
def pngF (fs : ℚ) (gi : GlyphIn) : ℚ :=
  units_to_double ((-(gi.logical_y : ℚ)) - (gi.logical_height : ℚ)) / fs - fs

/-- Color-glyph stage (text.py lines 213-243).  A malformed blob makes
the decoder raise, aborting the draw (`Except.error`); a zero raster
dimension would likewise raise on the `width / height` division.  The
cached width must be present (it was just ensured); a missing entry
would be a `KeyError`. -/
def emojiStep (fs : ℚ) (font : FontInfo) (gi : GlyphIn) (st : EncState) :
    Except Unit EncState :=
  if font.svg then
    match gi.svgData with
    | some Blob.bad => .error ()
    | some (Blob.ok _ _) =>
      match st.caches.widths font.hash gi.glyph with
      | none => .error ()
      | some cw =>
        .ok { st with emojis := st.emojis ++
          [⟨font.hash, gi.glyph, svgScale fs font cw, svgScale fs font cw, st.x_advance, 0⟩] }
    | none => .ok st
  else if font.png then
    match gi.pngData with
    | some Blob.bad => .error ()
    | some (Blob.ok w h) =>
      if h = 0 then .error ()
      else
        match st.caches.widths font.hash gi.glyph with
        | none => .error ()
        | some cw =>
          .ok { st with emojis := st.emojis ++
            [⟨font.hash, gi.glyph, (w : ℚ) / (h : ℚ) * ((cw : ℚ) / 1000),
              (cw : ℚ) / 1000, st.x_advance, pngF fs gi⟩] }
    | none => .ok st
  else .ok st

/-- Processing of one glyph of a run (text.py lines 161-245), paired
with its UTF-8 position.  A sentinel glyph only appends the bracketed
negative advance and touches nothing else (lines 165-168). -/
def processGlyph (fs : ℚ) (font : FontInfo) (utf8Text : List ℕ) (st : EncState)
    (gp : GlyphIn × ℕ) : Except Unit EncState :=
  let gi := gp.1
  if isSentinel gi.glyph then
    .ok { st with string := st.string ++ [Tok.gt, Tok.num (-(gi.width : ℚ) / fs), Tok.lt] }
  else
    let offset : ℚ := (gi.x_offset : ℚ) / fs
    let st1 := glyphStringStage fs font gi st
    let wc := widthStage fs font gi st1.caches
    let kerning := glyphKerning fs wc.1 gi.width gi.x_offset
    let st3 : EncState := { st1 with
      caches := wc.2,
      string := st1.string ++
        (if kerning ≠ 0 then [Tok.gt, Tok.num (kerning : ℚ), Tok.lt] else []) }
    let st4 : EncState := { st3 with
      caches := cmapStage font gi utf8Text gp.2 st3.previous_utf8_position st3.caches,
      previous_utf8_position := gp.2 }
    match emojiStep fs font gi st4 with
    | .error e => .error e
    | .ok st5 =>
      .ok { st5 with x_advance :=
        st5.x_advance + ((wc.1 : ℚ) + offset - (kerning : ℚ)) / 1000 }

/-- Fold of `processGlyph` over the glyphs of a run, stopping at the
first raised exception. -/
def foldGlyphs (fs : ℚ) (font : FontInfo) (utf8Text : List ℕ) :
    EncState → List (GlyphIn × ℕ) → Except Unit EncState
  | st, [] => .ok st
  | st, gp :: rest =>
    match processGlyph fs font utf8Text st gp with
    | .error e => .error e
    | .ok st' => foldGlyphs fs font utf8Text st' rest

/-- UTF-8 positions of a run's glyphs (text.py lines 150-151):
`[offset + clusters[i] for i in range(1, num_glyphs)]` then
`offset + length` appended. -/
def utf8Positions (run : RunIn) : List ℕ :=
  (run.clusters.drop 1).map (fun c => run.offset + c) ++ [run.offset + run.length]

/-- Font-change header of a run (text.py lines 154-159): when the run's
font differs from the active one, flush a nonempty pending string, reset
it, emit the font/size operator (size 1 for bitmap fonts), and record
the new active font. -/
def runHeader (fs : ℚ) (font : FontInfo) (st : EncState) : EncState :=
  if st.last_font ≠ some font.hash then
    let flushed :=
      if st.string ≠ [] then { st with ops := st.ops ++ [Op.showText st.string] } else st
    { flushed with
      string := [],
      ops := flushed.ops ++
        [Op.setFontSize font.hash (if font.bitmap then 1 else fs)],
      last_font := some font.hash }
  else st

/-- Header plus the unconditional `string += '<'` (text.py line 160). -/
def runStart (fs : ℚ) (font : FontInfo) (st : EncState) : EncState :=
  { runHeader fs font st with string := (runHeader fs font st).string ++ [Tok.lt] }

/-- Processing of one run (text.py lines 135-251): font change flushes
the batch and emits the font/size operator, `'<'` opens the run's glyph
list, glyphs are processed in order, and the glyph list is closed
(dropping an empty trailing group). -/
def processRun (fs : ℚ) (utf8Text : List ℕ) (st : EncState) (run : RunIn) :
    Except Unit EncState :=
  match foldGlyphs fs run.font utf8Text (runStart fs run.font st)
      (run.glyphs.zip (utf8Positions run)) with
  | .error e => .error e
  | .ok st3 => .ok { st3 with string := riseFlush st3.string }

/-- Fold of `processRun` over the line's runs. -/
def foldRuns (fs : ℚ) (utf8Text : List ℕ) :
    EncState → List RunIn → Except Unit EncState
  | st, [] => .ok st
  | st, run :: rest =>
    match processRun fs utf8Text st run with
    | .error e => .error e
    | .ok st' => foldRuns fs utf8Text st' rest

/-- Initial state of the run walk (text.py lines 128-133). -/
def initState (caches : FontCaches) : EncState :=
  ⟨[], none, 0, 0, caches, [], []⟩

/-- The run-walking part of `draw_first_line` (text.py lines 127-256):
walk all runs from the initial state, then emit the final
`stream.show_text(string)` (line 254, unconditional). -/
def encodeRuns (fs : ℚ) (utf8Text : List ℕ) (caches : FontCaches) (runs : List RunIn) :
    Except Unit EncState :=
  match foldRuns fs utf8Text (initState caches) runs with
  | .error e => .error e
  | .ok st => .ok { st with ops := st.ops ++ [Op.showText st.string] }

/-- The styled, positioned textbox passed to `draw_text`, with the style
fields and Pango-layout metrics the drawing code reads. -/
structure TextBox where
  fontSize : ℚ
  visibility : String
  text : List Char
  decorOverline : Bool
  decorUnderline : Bool
  decorLineThrough : Bool
  decorationStyle : String
  decorationColor : RGBA
  color : RGBA
  positionX : ℚ
  positionY : ℚ
  baseline : ℚ
  width : ℚ
  ascent : ℚ
  underlinePosition : ℚ
  underlineThickness : ℚ
  strikethroughPosition : ℚ
  strikethroughThickness : ℚ

/-- Model of `draw_text_decoration` (text.py lines 259-264): a single `draw_line`
call spanning the textbox width at the given vertical offset.
`draw_line` itself (draw/border.py) is an external collaborator,
recorded as a `line` operator with its arguments. -/
def draw_text_decoration (tb : TextBox) (offsetX offsetY thickness : ℚ) (color : RGBA) :
    Op :=
  Op.line tb.positionX (tb.positionY + offsetY)
    (tb.positionX + tb.width) (tb.positionY + offsetY)
    thickness tb.decorationStyle color offsetX

/-- Model of `draw_emojis` (text.py lines 68-73): for each descriptor, inside a
push/pop graphics-state bracket, transform by
`(a, 0, 0, d, x + e * font_size, y + f)` and draw the image. -/
def draw_emojis (fs x y : ℚ) (emojis : List Emoji) : List Op :=
  (emojis.map (fun em =>
    [Op.pushState,
     Op.transform em.a 0 0 em.d (x + em.e * fs) (y + em.f),
     Op.drawImage em.fontHash em.glyph fs,
     Op.popState])).flatten

/-- Model of `draw_first_line` (text.py lines 76-256), with shaping externalized:
the already shaped (and, where applicable, already truncated) line
arrives as `runs` with its UTF-8 text.  Whitespace-only text and a font
size below pydyf's float precision (1e-6) return without emitting
anything; otherwise the text matrix is set and the runs are encoded. -/
def draw_first_line (tb : TextBox) (matVals : List ℚ) (utf8Text : List ℕ)
    (runs : List RunIn) (caches : FontCaches) :
    Except Unit (List Op × List Emoji × FontCaches) :=
  if tb.text.all Char.isWhitespace then .ok ([], [], caches)
  else if tb.fontSize < 1/1000000 then .ok ([], [], caches)
  else
    match encodeRuns tb.fontSize utf8Text caches runs with
    | .error e => .error e
    | .ok st => .ok (Op.setTextMatrix matVals :: st.ops, st.emojis, st.caches)

/-- Model of `draw_text` (text.py lines 18-65).  The leading
`assert textbox.style['font_size']` makes a zero font size an
`AssertionError` (`Except.error`); an invisible textbox returns before
emitting anything.  Otherwise: overline/underline decorations, color,
alpha, the text-object bracket around `draw_first_line`, the emoji
compositing pass, and the line-through decoration.  Returns the emitted
operators, the emoji list handed to `draw_emojis`, and the caches. -/
def draw_text (tb : TextBox) (offsetX : ℚ) (utf8Text : List ℕ)
    (runs : List RunIn) (caches : FontCaches) :
    Except Unit (List Op × List Emoji × FontCaches) :=
  if tb.fontSize = 0 then .error ()
  else if tb.visibility ≠ "visible" then .ok ([], [], caches)
  else
    let decoOps :=
      (if tb.decorOverline then
        [draw_text_decoration tb offsetX
          (tb.baseline - tb.ascent + tb.underlineThickness / 2)
          tb.underlineThickness tb.decorationColor]
       else []) ++
      (if tb.decorUnderline then
        [draw_text_decoration tb offsetX
          (tb.baseline - tb.underlinePosition + tb.underlineThickness / 2)
          tb.underlineThickness tb.decorationColor]
       else [])
    let x := tb.positionX
    let y := tb.positionY + tb.baseline
    let pre := decoOps ++
      [Op.setColorRGB tb.color.r tb.color.g tb.color.b,
       Op.setAlpha tb.color.a, Op.beginText]
    match draw_first_line tb [1, 0, 0, -1, x, y] utf8Text runs caches with
    | .error e => .error e
    | .ok (ops, emojis, caches') =>
      let post := Op.endText :: draw_emojis tb.fontSize x y emojis ++
        (if tb.decorLineThrough then
          [draw_text_decoration tb offsetX
            (tb.baseline - tb.strikethroughPosition)
            tb.strikethroughThickness tb.decorationColor]
         else [])
      .ok (pre ++ ops ++ post, emojis, caches')

/-- Scanning helper for `get_last_word_end`: walks the characters after
position `idx - 1`, with `prev` the character at `idx - 1`, and returns
the greatest word-end position found, if any. -/
def lastWordEndAux : List Char → Char → ℕ → Option ℕ
  | [], _, _ => none
  | c :: cs, prev, idx =>
    match lastWordEndAux cs c (idx + 1) with
    | some j => some j
    | none => if prev ≠ ' ' ∧ c = ' ' then some idx else none

/-- Modelled from the spec: `get_last_word_end` (weasyprint/text/line_break.py,
not under src/) returns "the last word boundary before" the end of the
given text, or nothing "if none exists".  A word boundary is a position
`i` (0 < i < length) whose preceding character is not a space and whose
character is a space; the greatest such position is returned. -/
def get_last_word_end : List Char → Option ℕ
  | [] => none
  | c :: cs => lastWordEndAux cs c 1

/-- Number of word-end positions of a text, scanned pairwise. -/
def cntEAux : List Char → Char → ℕ
  | [], _ => 0
  | c :: cs, prev => (if prev ≠ ' ' ∧ c = ' ' then 1 else 0) + cntEAux cs c

/-- Number of word-end positions strictly inside a text. -/
def countEnds : List Char → ℕ
  | [] => 0
  | c :: cs => cntEAux cs c

/-- Word-counting scan: `p` records whether the previous character was a
space (or the start of the text). -/
def cntW : List Char → Bool → ℕ
  | [], _ => 0
  | c :: cs, p => (if c ≠ ' ' ∧ p then 1 else 0) + cntW cs (c = ' ')

/-- Number of words (maximal space-free runs) of a text. -/
def countWords (l : List Char) : ℕ := cntW l true

/-- The pre-ellipsis part of the layout text, as the loop computes it:
`textbox.pango_layout.text[:-len(ellipsis)]`.  Python's `text[:-0]` is
the empty string, hence the case split on an empty ellipsis. -/
def preEllipsis (e text : List Char) : List Char :=
  if e.length = 0 then [] else text.take (text.length - e.length)

/-- The explicit block-ellipsis truncation loop (text.py lines 116-125),
with the shaping engine abstracted by the oracle `ov` (the truthiness of
the overflow `index` returned by `get_first_line` for a given layout
text).  Each pass finds the last word boundary of the pre-ellipsis text,
truncates there, re-appends the ellipsis and re-shapes; it stops when
the line no longer overflows or no boundary exists.  Returns the
successive layout texts produced by the truncating passes. -/
def truncSteps (ov : List Char → Bool) (e : List Char) (text : List Char) :
    List (List Char) :=
  if ov text then
    match h : get_last_word_end (preEllipsis e text) with
    | none => []
    | some i => (text.take i ++ e) :: truncSteps ov e (text.take i ++ e)
  else []
termination_by text.length
decreasing_by
  have key : ∀ (cs : List Char) (prev : Char) (idx i : ℕ),
      lastWordEndAux cs prev idx = some i → i < idx + cs.length := by
    intro cs
    induction cs with
    | nil => intro prev idx i h2; simp [lastWordEndAux] at h2
    | cons c cs ih =>
      intro prev idx i h2
      simp only [lastWordEndAux] at h2
      split at h2
      next j hr =>
        cases h2
        have := ih _ _ _ hr
        simp only [List.length_cons]
        omega
      next hr =>
        split at h2
        next =>
          cases h2
          simp only [List.length_cons]
          omega
        next => exact absurd h2 (by simp)
  have hi : i < (preEllipsis e text).length := by
    rcases hP : preEllipsis e text with _ | ⟨c, cs⟩
    · rw [hP] at h
      simp [get_last_word_end] at h
    · rw [hP] at h
      rw [get_last_word_end] at h
      have := key cs c 1 i h
      simp only [List.length_cons]
      omega
  by_cases he : e.length = 0
  · rw [preEllipsis, if_pos he] at hi
    simp at hi
  · rw [preEllipsis, if_neg he] at hi
    simp only [List.length_take] at hi
    simp only [List.length_append, List.length_take]
    omega

/-- Pointwise preservation of cache entries: every entry of `c` is still
present, with the same value, in `c'`. -/
def CachePres (c c' : FontCaches) : Prop :=
  (∀ h g w, c.widths h g = some w → c'.widths h g = some w) ∧
  (∀ h g s, c.cmap h g = some s → c'.cmap h g = some s)

/-- PDF values as pdfa.py manipulates them: name strings (`'/Annot'`),
integers, string objects, indirect references (pydyf reference strings
`'n 0 R'`, modelled by the object number), arrays, and inline
dictionaries. -/
inductive PdfVal where
  | name (s : String) : PdfVal
  | int (n : ℤ) : PdfVal
  | str (s : String) : PdfVal
  | ref (n : ℕ) : PdfVal
  | arr (items : List PdfVal) : PdfVal
  | dictv (entries : List (String × PdfVal)) : PdfVal

/-- Entries of a pydyf Dictionary (unique keys, insertion-ordered). -/
def Entries := List (String × PdfVal)

/-- Dictionary read, `d.get(k)` / `d[k]`. -/
def entGet (d : Entries) (k : String) : Option PdfVal :=
  match d with
  | [] => none
  | (k', v) :: rest => if k' = k then some v else entGet rest k

/-- Dictionary write, `d[k] = v`: replace an existing key, else append. -/
def entSet (d : Entries) (k : String) (v : PdfVal) : Entries :=
  match d with
  | [] => [(k, v)]
  | (k', v') :: rest => if k' = k then (k, v) :: rest else (k', v') :: entSet rest k v

/-- Test of `pdf_object.get('Type') == s` for a name string `s`. -/
def typeIs (d : Entries) (s : String) : Bool :=
  match entGet d "Type" with
  | some (PdfVal.name t) => t == s
  | _ => false

/-- A pydyf PDF object: `isinstance(pdf_object, dict)` distinguishes
dictionary objects; the EmbeddedFiles name tree is an array-like object
(`names[1::2]` slices it); everything else (streams, ...) is opaque.
Object number = position in the objects list (pydyf numbering). -/
inductive PdfObj where
  | dict (entries : Entries) : PdfObj
  | arrObj (items : List PdfVal) : PdfObj
  | nondict : PdfObj

instance : Inhabited PdfObj := ⟨PdfObj.nondict⟩

/-- The PDF under construction: its catalog dictionary and object list. -/
structure Pdf where
  catalog : Entries
  objects : List PdfObj

instance : Inhabited Pdf := ⟨⟨[], []⟩⟩

/-- One document attachment from `document.metadata.attachments`, with
its md5 content hash (empty = falsy) and relationship. -/
structure Attachment where
  md5 : String
  relationship : String

/-- Python's `names[1::2]`: the elements at odd indices. -/
def oddItems {α : Type} : List α → List α
  | [] => []
  | [_] => []
  | _ :: b :: rest => b :: oddItems rest

/-- The relationships dict comprehension (pdfa.py lines 45-48) followed
by `relationships.get(checksum, 'Unspecified')` (line 53): the
relationship of the attachment with a truthy md5 equal to the checksum
(the last one, as later comprehension entries overwrite earlier ones),
else `'Unspecified'`. -/
def relLookup (atts : List Attachment) (cs : String) : String :=
  match (atts.filter (fun a => a.md5 ≠ "" && a.md5 == cs)).getLast? with
  | some a => a.relationship
  | none => "Unspecified"

/-- Lookup key of `relationships.get(checksum, ...)`: a non-string
CheckSum value is simply not a key of the relationships dict. -/
def relOf (atts : List Attachment) (cs : PdfVal) : String :=
  match cs with
  | PdfVal.str s => relLookup atts s
  | _ => "Unspecified"

/-- Collection of the embedded-files name references (pdfa.py lines
40-44): follow `catalog['Names']['EmbeddedFiles']` to the name-tree
object and take every second element.  A dangling or non-array target
makes the Python raise (`IndexError`/`TypeError`); a non-reference
value would make `int(...)` raise. -/
def embeddedNames (catalog : Entries) (objects : List PdfObj) :
    Except Unit (List PdfVal) :=
  match entGet catalog "Names" with
  | some (PdfVal.dictv names) =>
    match entGet names "EmbeddedFiles" with
    | some (PdfVal.ref r) =>
      match objects.get? r with
      | some (PdfObj.arrObj items) => .ok (oddItems items)
      | _ => .error ()
    | none => .ok []
    | some _ => .error ()
  | _ => .ok []

/-- One step of the Filespec pass (pdfa.py lines 49-55): a dictionary
object with Type `/Filespec` gets `AFRelationship` set from its
`CheckSum` (a missing CheckSum is a `KeyError`) and contributes its
reference. -/
def filespecFix (atts : List Attachment) (idx : ℕ) (o : PdfObj) :
    Except Unit (PdfObj × List PdfVal) :=
  match o with
  | PdfObj.dict d =>
    if typeIs d "/Filespec" then
      match entGet d "CheckSum" with
      | none => .error ()
      | some cs =>
        .ok (PdfObj.dict (entSet d "AFRelationship" (PdfVal.name ("/" ++ relOf atts cs))),
             [PdfVal.ref idx])
    else .ok (PdfObj.dict d, [])
  | PdfObj.arrObj items => .ok (PdfObj.arrObj items, [])
  | PdfObj.nondict => .ok (PdfObj.nondict, [])

/-- The Filespec pass over all objects, collecting references in order. -/
def filespecPass (atts : List Attachment) :
    List PdfObj → ℕ → Except Unit (List PdfObj × List PdfVal)
  | [], _ => .ok ([], [])
  | o :: rest, idx =>
    match filespecFix atts idx o with
    | .error e => .error e
    | .ok (o', refs) =>
      match filespecPass atts rest (idx + 1) with
      | .error e => .error e
      | .ok (rest', refsR) => .ok (o' :: rest', refs ++ refsR)

/-- The annotation pass (pdfa.py lines 62-64): every dictionary object
with Type `/Annot` gets `F = 2 ** (3 - 1)` (the print flag). -/
def annotFix (o : PdfObj) : PdfObj :=
  match o with
  | PdfObj.dict d =>
    if typeIs d "/Annot" then PdfObj.dict (entSet d "F" (PdfVal.int (2 ^ (3 - 1))))
    else PdfObj.dict d
  | PdfObj.arrObj items => PdfObj.arrObj items
  | PdfObj.nondict => PdfObj.nondict

/-- Map of `annotFix` over all objects. -/
def annotPass (objs : List PdfObj) : List PdfObj := objs.map annotFix

/-- The OutputIntent entry added for the ICC profile (pdfa.py lines 28-35). -/
def outputIntents (profileRef : ℕ) : PdfVal :=
  PdfVal.arr [PdfVal.dictv
    [("Type", PdfVal.name "/OutputIntent"),
     ("S", PdfVal.name "/GTS_PDFA1"),
     ("OutputConditionIdentifier", PdfVal.str "sRGB IEC61966-2.1"),
     ("DestOutputProfile", PdfVal.ref profileRef)]]

/-- The attachment stage of `pdfa` (pdfa.py lines 37-59), acting on the
profile-extended object list and OutputIntents-extended catalog: only
for version >= 2, collect the embedded-files names and the Filespec
references (tagging each Filespec with its `AFRelationship`), and when
any were collected, extend (or create) the catalog's `AF` array. -/
def pdfaAF (atts : List Attachment) (version : ℕ) (objects0 : List PdfObj)
    (catalog0 : Entries) : Except Unit (List PdfObj × Entries) :=
  if 2 ≤ version then
    match embeddedNames catalog0 objects0 with
    | .error e => .error e
    | .ok emb =>
      match filespecPass atts objects0 0 with
      | .error e => .error e
      | .ok (objs1, refs) =>
        if (emb ++ refs).isEmpty then .ok (objs1, catalog0)
        else
          match entGet catalog0 "AF" with
          | some (PdfVal.arr old) =>
            .ok (objs1, entSet catalog0 "AF" (PdfVal.arr (old ++ (emb ++ refs))))
          | none => .ok (objs1, entSet catalog0 "AF" (PdfVal.arr (emb ++ refs)))
          | some _ => .error ()
  else .ok (objects0, catalog0)

/-- The `pdfa` finalizer (pdfa.py lines 20-67): attach the ICC profile
stream and OutputIntents; for version >= 2 collect attachment
references (embedded-files names, then each Filespec object, which also
receives its `AFRelationship`) and extend the catalog's `AF` array with
them when any exist; set the print flag on every annotation dictionary;
finally `add_metadata`.  `add_metadata` (weasyprint/pdf/metadata.py, not
under src/) is modelled from the spec: it "writes a metadata stream"
on the finished graph — one appended non-dictionary stream object,
recorded in the catalog. -/
def pdfa (pdf : Pdf) (atts : List Attachment) (version : ℕ) : Except Unit Pdf :=
  match pdfaAF atts version (pdf.objects ++ [PdfObj.nondict])
      (entSet pdf.catalog "OutputIntents" (outputIntents pdf.objects.length)) with
  | .error e => .error e
  | .ok (objs1, cat1) =>
    .ok ⟨entSet cat1 "Metadata" (PdfVal.ref ((annotPass objs1).length)),
         annotPass objs1 ++ [PdfObj.nondict]⟩

/-- Odd-hash outline font with no color tables, upem 1000. -/
def font7 : FontInfo := ⟨7, false, false, false, 1000⟩

/-- Outline font carrying raster (png) color glyphs. -/
def fontPng : FontInfo := ⟨9, false, false, true, 1000⟩

/-- Caches with one pre-existing width entry (font 7, glyph 5 -> 500). -/
def caches1 : FontCaches :=
  ⟨fun h g => if h = 7 ∧ g = 5 then some 500 else none, fun _ _ => none⟩

/-- Glyph 5, advance 512 Pango units (500 per-mille at size 1). -/
def gi1 : GlyphIn := ⟨5, 512, 0, 0, 512, 0, 0, none, none⟩

def run1 : RunIn := ⟨font7, [gi1], 0, 1, [0]⟩

/-- Result of re-encountering the pre-cached glyph. -/
def c1Result : EncState :=
  match encodeRuns 1 [65] caches1 [run1] with
  | .ok st => st
  | .error _ => default

/-- Glyph with advance 512 Pango units and x_offset 5. -/
def gi3 : GlyphIn := ⟨1, 512, 5, 0, 512, 0, 0, none, none⟩

def run3 : RunIn := ⟨font7, [gi3], 0, 2, [0]⟩

def c3Result : EncState :=
  match encodeRuns 1 [65, 66] emptyCaches [run3] with
  | .ok st => st
  | .error _ => default

/-- Mid-run encoder state: a fresh open bracket pending. -/
def st0 : EncState := { initState emptyCaches with string := [Tok.lt] }

/-- Glyph with y_offset 1000 (rise 1 text-space unit). -/
def gi4 : GlyphIn := ⟨1, 512, 0, 1000, 512, 0, 0, none, none⟩

def c4Result : EncState :=
  match processGlyph 1 font7 [65] st0 (gi4, 1) with
  | .ok st => st
  | .error _ => default

/-- The "no visible glyph" sentinel with advance 2048 Pango units. -/
def gi5 : GlyphIn := ⟨PANGO_GLYPH_EMPTY, 2048, 0, 0, 0, 0, 0, none, none⟩

def c5Result : EncState :=
  match processGlyph 2 font7 [] st0 (gi5, 0) with
  | .ok st => st
  | .error _ => default

/-- A visible textbox with text "hi" and a font size below 1e-6. -/
def tb6 : TextBox :=
  { fontSize := 1/10000000, visibility := "visible", text := ['h', 'i'],
    decorOverline := false, decorUnderline := false, decorLineThrough := false,
    decorationStyle := "solid", decorationColor := ⟨0, 0, 0, 1⟩,
    color := ⟨0, 0, 0, 1⟩, positionX := 0, positionY := 0, baseline := 0,
    width := 0, ascent := 0, underlinePosition := 0, underlineThickness := 0,
    strikethroughPosition := 0, strikethroughThickness := 0 }

/-- The same textbox at a normal size. -/
def tb7 : TextBox := { tb6 with fontSize := 1 }

/-- Glyph of a raster color font whose png blob is malformed. -/
def giBad : GlyphIn := ⟨1, 512, 0, 0, 512, 0, 0, none, some Blob.bad⟩

def runBad : RunIn := ⟨fontPng, [giBad], 0, 1, [0]⟩

/-- Glyph with a decodable 200x100 png blob and logical width 1024
Pango units (cached width 1000 per-mille at size 1). -/
def giPng : GlyphIn := ⟨1, 1024, 0, 0, 1024, 0, 0, none, some (Blob.ok 200 100)⟩

def c8Result : EncState :=
  match processGlyph 1 fontPng [65] st0 (giPng, 1) with
  | .ok st => st
  | .error _ => default

/-- A link annotation dictionary. -/
def d9 : Entries := [("Type", PdfVal.name "/Annot"), ("Subtype", PdfVal.name "/Link")]

def p9 : Pdf := ⟨[], [PdfObj.dict d9]⟩

def pdf9 : Pdf :=
  match pdfa p9 [] 1 with
  | .ok p => p
  | .error _ => default

/-- The annotation dictionary as it appears in the finalized document. -/
def d9F : Entries :=
  match pdf9.objects with
  | PdfObj.dict d :: _ => d
  | _ => []

/-- A file-specification dictionary with content hash "abc". -/
def dFS : Entries := [("Type", PdfVal.name "/Filespec"), ("CheckSum", PdfVal.str "abc")]

def p10 : Pdf := ⟨[], [PdfObj.dict dFS]⟩

def atts10 : List Attachment := [⟨"abc", "Source"⟩]

def pdf10 : Pdf :=
  match pdfa p10 atts10 2 with
  | .ok p => p
  | .error _ => default

/-- The file specification as it appears in the finalized document. -/
def dFS2 : Entries :=
  match pdf10.objects with
  | PdfObj.dict d :: _ => d
  | _ => []

theorem lastWordEndAux_ge {cs : List Char} {prev : Char} {idx i : ℕ}
    (h : lastWordEndAux cs prev idx = some i) : idx ≤ i := by
  induction cs generalizing prev idx with
  | nil => simp [lastWordEndAux] at h
  | cons c cs ih =>
    simp only [lastWordEndAux] at h
    split at h
    next j hr =>
      cases h
      have := ih hr
      omega
    next hr =>
      split at h
      next hcond =>
        cases h
        omega
      next => exact absurd h (by simp)

theorem lastWordEndAux_lt {cs : List Char} {prev : Char} {idx i : ℕ}
    (h : lastWordEndAux cs prev idx = some i) : i < idx + cs.length := by
  induction cs generalizing prev idx with
  | nil => simp [lastWordEndAux] at h
  | cons c cs ih =>
    simp only [lastWordEndAux] at h
    split at h
    next j hr =>
      cases h
      have := ih hr
      simp only [List.length_cons]
      omega
    next hr =>
      split at h
      next hcond =>
        cases h
        simp only [List.length_cons]
        omega
      next => exact absurd h (by simp)

/-- A found word boundary lies strictly before the end of the text. -/
theorem get_last_word_end_lt {l : List Char} {i : ℕ}
    (h : get_last_word_end l = some i) : i < l.length := by
  cases l with
  | nil => simp [get_last_word_end] at h
  | cons c cs =>
    rw [get_last_word_end] at h
    have := lastWordEndAux_lt h
    simp only [List.length_cons]
    omega

/-- Truncating at the found word boundary removes at least one word-end
position. -/
theorem cntEAux_take_lt {cs : List Char} {prev : Char} {idx i : ℕ}
    (h : lastWordEndAux cs prev idx = some i) :
    cntEAux (cs.take (i - idx)) prev < cntEAux cs prev := by
  induction cs generalizing prev idx with
  | nil => simp [lastWordEndAux] at h
  | cons c cs ih =>
    simp only [lastWordEndAux] at h
    split at h
    next j hr =>
      cases h
      have hge := lastWordEndAux_ge hr
      have hix : i - idx = (i - (idx + 1)) + 1 := by omega
      rw [hix]
      simp only [List.take_succ_cons, cntEAux]
      have := ih hr
      omega
    next hr =>
      split at h
      next hcond =>
        cases h
        obtain ⟨h1, h2⟩ := hcond
        simp [cntEAux, h1, h2]
      next => exact absurd h (by simp)

theorem countEnds_take_lt {l : List Char} {i : ℕ}
    (h : get_last_word_end l = some i) :
    countEnds (l.take i) < countEnds l := by
  cases l with
  | nil => simp [get_last_word_end] at h
  | cons c cs =>
    rw [get_last_word_end] at h
    have hge : 1 ≤ i := lastWordEndAux_ge h
    have htake : (c :: cs).take i = c :: cs.take (i - 1) := by
      cases i with
      | zero => omega
      | succ n => simp
    rw [htake]
    have := cntEAux_take_lt h
    simpa [countEnds] using this

/-- There are at most as many word ends as words. -/
theorem cntEAux_le_cntW (cs : List Char) (prev : Char) :
    cntEAux cs prev ≤ (if prev ≠ ' ' then 1 else 0) + cntW cs (prev = ' ') := by
  induction cs generalizing prev with
  | nil =>
    rw [cntEAux, cntW]
    split <;> omega
  | cons c cs ih =>
    rw [cntEAux, cntW]
    have := ih c
    by_cases hp : prev = ' ' <;> by_cases hc : c = ' ' <;>
      simp [hp, hc] at this ⊢ <;> omega

/-- A truncating pass shortens the pre-ellipsis text to the prefix ending
at the found word boundary. -/
theorem preEllipsis_trunc {e text : List Char} {i : ℕ}
    (h : get_last_word_end (preEllipsis e text) = some i) :
    preEllipsis e (text.take i ++ e) = (preEllipsis e text).take i := by
  have hi := get_last_word_end_lt h
  by_cases he : e.length = 0
  · rw [preEllipsis, if_pos he] at hi
    simp at hi
  · rw [preEllipsis, if_neg he] at hi
    simp only [List.length_take] at hi
    have hlt : i < text.length - e.length := by omega
    have hile : i ≤ text.length := by omega
    rw [preEllipsis, if_neg he, preEllipsis, if_neg he]
    have hlen : (text.take i ++ e).length - e.length = i := by
      simp only [List.length_append, List.length_take]
      omega
    rw [hlen]
    rw [List.take_append_of_le_length (by simp; omega)]
    rw [List.take_take, List.take_take]
    congr 1
    omega

/-- The boundary found is strictly inside the pre-ellipsis text, so each
pass strictly shortens it. -/
theorem preEllipsis_trunc_lt {e text : List Char} {i : ℕ}
    (h : get_last_word_end (preEllipsis e text) = some i) :
    (preEllipsis e (text.take i ++ e)).length < (preEllipsis e text).length := by
  rw [preEllipsis_trunc h]
  have hi := get_last_word_end_lt h
  simp only [List.length_take]
  omega

theorem countEnds_le_countWords (l : List Char) : countEnds l ≤ countWords l := by
  cases l with
  | nil => simp [countEnds, countWords, cntW]
  | cons c cs =>
    rw [countEnds, countWords, cntW]
    have := cntEAux_le_cntW cs c
    by_cases hc : c = ' ' <;> simp [hc] at this ⊢ <;> omega

theorem truncSteps_aux (ov : List Char → Bool) (e : List Char) :
    ∀ n (text : List Char), text.length ≤ n →
    (truncSteps ov e text).length ≤ countEnds (preEllipsis e text) ∧
    List.Chain' (fun a b => (preEllipsis e b).length < (preEllipsis e a).length)
      (text :: truncSteps ov e text) := by
  intro n
  induction n with
  | zero =>
    intro text hn
    rw [truncSteps]
    split
    · split
      next => simp
      next i h =>
        have hi := get_last_word_end_lt h
        have : (preEllipsis e text).length ≤ text.length := by
          rw [preEllipsis]
          split <;> simp
        omega
    · simp
  | succ n ih =>
    intro text hn
    rw [truncSteps]
    split
    next hov =>
      split
      next => simp
      next i h =>
        have hi := get_last_word_end_lt h
        have hlen : (text.take i ++ e).length ≤ n := by
          by_cases he : e.length = 0
          · rw [preEllipsis, if_pos he] at hi
            simp at hi
          · rw [preEllipsis, if_neg he] at hi
            simp only [List.length_take] at hi
            simp only [List.length_append, List.length_take]
            omega
        obtain ⟨ihlen, ihchain⟩ := ih (text.take i ++ e) hlen
        constructor
        · have h1 := countEnds_take_lt h
          rw [preEllipsis_trunc h] at ihlen
          simp only [List.length_cons]
          omega
        · exact List.Chain'.cons (preEllipsis_trunc_lt h) ihchain
    next => simp

theorem CachePres.refl (c : FontCaches) : CachePres c c :=
  ⟨fun _ _ _ hw => hw, fun _ _ _ hs => hs⟩

theorem CachePres.trans {a b c : FontCaches} (h1 : CachePres a b) (h2 : CachePres b c) :
    CachePres a c :=
  ⟨fun h g w hw => h2.1 h g w (h1.1 h g w hw),
   fun h g s hs => h2.2 h g s (h1.2 h g s hs)⟩

theorem glyphStringStage_caches (fs : ℚ) (font : FontInfo) (gi : GlyphIn) (st : EncState) :
    (glyphStringStage fs font gi st).caches = st.caches := by
  rw [glyphStringStage]
  split <;> rfl

theorem glyphStringStage_emojis (fs : ℚ) (font : FontInfo) (gi : GlyphIn) (st : EncState) :
    (glyphStringStage fs font gi st).emojis = st.emojis := by
  rw [glyphStringStage]
  split <;> rfl

theorem glyphStringStage_x_advance (fs : ℚ) (font : FontInfo) (gi : GlyphIn) (st : EncState) :
    (glyphStringStage fs font gi st).x_advance = st.x_advance := by
  rw [glyphStringStage]
  split <;> rfl

theorem glyphStringStage_prev (fs : ℚ) (font : FontInfo) (gi : GlyphIn) (st : EncState) :
    (glyphStringStage fs font gi st).previous_utf8_position =
      st.previous_utf8_position := by
  rw [glyphStringStage]
  split <;> rfl

/-- The width stage only ever fills the absent entry it is looking at:
existing entries survive unchanged. -/
theorem widthStage_pres (fs : ℚ) (font : FontInfo) (gi : GlyphIn) (c : FontCaches) :
    CachePres c (widthStage fs font gi c).2 := by
  rw [widthStage]
  cases hc : c.widths font.hash gi.glyph with
  | some w => exact CachePres.refl c
  | none =>
    refine ⟨fun h g w hw => ?_, fun h g s hs => hs⟩
    simp only [cacheWidth]
    split
    next heq =>
      obtain ⟨rfl, rfl⟩ := heq
      rw [hc] at hw
      cases hw
    next => exact hw

/-- After the width stage the entry for the processed glyph is present
and holds the value the stage returned. -/
theorem widthStage_hit (fs : ℚ) (font : FontInfo) (gi : GlyphIn) (c : FontCaches) :
    (widthStage fs font gi c).2.widths font.hash gi.glyph =
      some (widthStage fs font gi c).1 := by
  rw [widthStage]
  cases hc : c.widths font.hash gi.glyph with
  | some w => exact hc
  | none => simp [cacheWidth]

theorem cmapStage_pres (font : FontInfo) (gi : GlyphIn) (utf8Text : List ℕ)
    (pos prev : ℕ) (c : FontCaches) :
    CachePres c (cmapStage font gi utf8Text pos prev c) := by
  rw [cmapStage]
  cases hc : c.cmap font.hash gi.glyph with
  | some s => exact CachePres.refl c
  | none =>
    refine ⟨fun h g w hw => hw, fun h g s hs => ?_⟩
    simp only [cacheCmap]
    split
    next heq =>
      obtain ⟨rfl, rfl⟩ := heq
      rw [hc] at hs
      cases hs
    next => exact hs

theorem cmapStage_widths (font : FontInfo) (gi : GlyphIn) (utf8Text : List ℕ)
    (pos prev : ℕ) (c : FontCaches) :
    (cmapStage font gi utf8Text pos prev c).widths = c.widths := by
  rw [cmapStage]
  cases c.cmap font.hash gi.glyph <;> rfl

/-- A successful emoji stage only appends to the emoji list. -/
theorem emojiStep_ok_proj {fs : ℚ} {font : FontInfo} {gi : GlyphIn} {st st' : EncState}
    (h : emojiStep fs font gi st = .ok st') :
    st'.string = st.string ∧ st'.ops = st.ops ∧ st'.caches = st.caches ∧
    st'.x_advance = st.x_advance ∧
    st'.previous_utf8_position = st.previous_utf8_position ∧
    st'.last_font = st.last_font := by
  rw [emojiStep] at h
  repeat' split at h
  all_goals cases h
  all_goals exact ⟨rfl, rfl, rfl, rfl, rfl, rfl⟩

/-- Per-glyph cache preservation: a glyph never overwrites an existing
widths/cmap entry. -/
theorem processGlyph_pres {fs : ℚ} {font : FontInfo} {utf8Text : List ℕ}
    {st : EncState} {gp : GlyphIn × ℕ} {st' : EncState}
    (h : processGlyph fs font utf8Text st gp = .ok st') :
    CachePres st.caches st'.caches := by
  obtain ⟨gi, pos⟩ := gp
  simp only [processGlyph] at h
  split at h
  · cases h
    exact CachePres.refl _
  · split at h
    next e hE => cases h
    next st5 hE =>
      cases h
      have hc5 := (emojiStep_ok_proj hE).2.2.1
      have hgoal : CachePres st.caches st5.caches := by
        rw [hc5]
        show CachePres st.caches
          (cmapStage font gi utf8Text pos
            (glyphStringStage fs font gi st).previous_utf8_position
            (widthStage fs font gi (glyphStringStage fs font gi st).caches).2)
        rw [glyphStringStage_caches]
        exact CachePres.trans (widthStage_pres fs font gi st.caches)
          (cmapStage_pres font gi utf8Text pos _ _)
      exact hgoal

/-- Per-run cache preservation, by induction over the glyphs. -/
theorem foldGlyphs_pres {fs : ℚ} {font : FontInfo} {utf8Text : List ℕ} :
    ∀ {gps : List (GlyphIn × ℕ)} {st st' : EncState},
    foldGlyphs fs font utf8Text st gps = .ok st' → CachePres st.caches st'.caches := by
  intro gps
  induction gps with
  | nil =>
    intro st st' h
    cases h
    exact CachePres.refl _
  | cons gp rest ih =>
    intro st st' h
    rw [foldGlyphs] at h
    split at h
    next => cases h
    next st1 hg => exact CachePres.trans (processGlyph_pres hg) (ih h)

theorem runStart_caches (fs : ℚ) (font : FontInfo) (st : EncState) :
    (runStart fs font st).caches = st.caches := by
  rw [runStart, runHeader]
  split
  · split <;> rfl
  · rfl

theorem processRun_pres {fs : ℚ} {utf8Text : List ℕ} {st : EncState} {run : RunIn}
    {st' : EncState} (h : processRun fs utf8Text st run = .ok st') :
    CachePres st.caches st'.caches := by
  rw [processRun] at h
  split at h
  next => cases h
  next st3 hg =>
    cases h
    have hp := foldGlyphs_pres hg
    rw [runStart_caches] at hp
    exact hp

theorem foldRuns_pres {fs : ℚ} {utf8Text : List ℕ} :
    ∀ {runs : List RunIn} {st st' : EncState},
    foldRuns fs utf8Text st runs = .ok st' → CachePres st.caches st'.caches := by
  intro runs
  induction runs with
  | nil =>
    intro st st' h
    cases h
    exact CachePres.refl _
  | cons run rest ih =>
    intro st st' h
    rw [foldRuns] at h
    split at h
    next => cases h
    next st1 hg => exact CachePres.trans (processRun_pres hg) (ih h)

theorem encodeRuns_pres {fs : ℚ} {utf8Text : List ℕ} {caches : FontCaches}
    {runs : List RunIn} {st' : EncState}
    (h : encodeRuns fs utf8Text caches runs = .ok st') :
    CachePres caches st'.caches := by
  rw [encodeRuns] at h
  split at h
  next => cases h
  next st hg =>
    cases h
    exact foldRuns_pres hg

/-- A sentinel glyph resolves to exactly one bracketed horizontal
adjustment appended to the batch, with no other state change. -/
theorem processGlyph_sentinel (fs : ℚ) (font : FontInfo) (utf8Text : List ℕ)
    (st : EncState) (gi : GlyphIn) (pos : ℕ) (hs : isSentinel gi.glyph = true) :
    processGlyph fs font utf8Text st (gi, pos) =
      .ok { st with string :=
        st.string ++ [Tok.gt, Tok.num (-(gi.width : ℚ) / fs), Tok.lt] } := by
  simp only [processGlyph, hs, if_true]

/-- A nonzero integer y_offset gives a nonzero rational rise. -/
theorem riseCond_of_ne {y : ℤ} (hy : y ≠ 0) : (y : ℚ) / 1000 ≠ 0 :=
  div_ne_zero (Int.cast_ne_zero.mpr hy) (by norm_num)

/-- The emoji stage on a raster color font with a decodable blob and a
cached width appends exactly one descriptor scaled by the cached width
and the image aspect ratio. -/
theorem emojiStep_png {fs : ℚ} {font : FontInfo} {gi : GlyphIn} {st : EncState}
    {w h : ℕ} (hsvg : font.svg = false) (hpng : font.png = true)
    (hblob : gi.pngData = some (Blob.ok w h)) (hh : h ≠ 0) {cw : ℤ}
    (hcw : st.caches.widths font.hash gi.glyph = some cw) :
    emojiStep fs font gi st = .ok { st with emojis := st.emojis ++
      [⟨font.hash, gi.glyph, (w : ℚ) / (h : ℚ) * ((cw : ℚ) / 1000), (cw : ℚ) / 1000,
        st.x_advance, pngF fs gi⟩] } := by
  rw [emojiStep]
  simp [hsvg, hpng, hblob, hh, hcw]

/-- The emoji stage on a raster color font raises on a malformed blob. -/
theorem emojiStep_png_bad {fs : ℚ} {font : FontInfo} {gi : GlyphIn} {st : EncState}
    (hsvg : font.svg = false) (hpng : font.png = true)
    (hblob : gi.pngData = some Blob.bad) :
    emojiStep fs font gi st = .error () := by
  rw [emojiStep]
  simp [hsvg, hpng, hblob]

/-- The emoji stage on a vector color font raises on a malformed blob. -/
theorem emojiStep_svg_bad {fs : ℚ} {font : FontInfo} {gi : GlyphIn} {st : EncState}
    (hsvg : font.svg = true) (hblob : gi.svgData = some Blob.bad) :
    emojiStep fs font gi st = .error () := by
  rw [emojiStep]
  simp [hsvg, hblob]

/-- Rise isolation at the glyph level: when a non-sentinel glyph with
nonzero y_offset is processed successfully, the emitted operators are
exactly flush-of-pending-batch, rise-set to `-(y_offset / 1000)`,
a standalone one-glyph show (preceded by its own offset number when
nonzero), and rise-reset to 0; the new pending batch is a fresh `<`
followed at most by the glyph's bracketed kerning adjustment. -/
theorem processGlyph_rise {fs : ℚ} {font : FontInfo} {utf8Text : List ℕ}
    {st : EncState} {gi : GlyphIn} {pos : ℕ} {st' : EncState}
    (hs : isSentinel gi.glyph = false) (hy : gi.y_offset ≠ 0)
    (h : processGlyph fs font utf8Text st (gi, pos) = .ok st') :
    st'.ops = st.ops ++
      [Op.showText (riseFlush st.string),
       Op.setTextRise (-((gi.y_offset : ℚ) / 1000)),
       Op.showText ((if (gi.x_offset : ℚ) / fs ≠ 0
           then [Tok.num (-((gi.x_offset : ℚ) / fs))] else []) ++
         [Tok.lt, Tok.hex gi.glyph font.bitmap, Tok.gt]),
       Op.setTextRise 0] ∧
    (st'.string = [Tok.lt] ∨ ∃ q, st'.string = [Tok.lt, Tok.gt, Tok.num q, Tok.lt]) := by
  simp only [processGlyph, hs, Bool.false_eq_true, if_false] at h
  split at h
  next e hE => cases h
  next st5 hE =>
    cases h
    have hproj := emojiStep_ok_proj hE
    have hstage : glyphStringStage fs font gi st = riseEmit fs font gi st := by
      rw [glyphStringStage, if_pos (riseCond_of_ne hy)]
    constructor
    · show st5.ops = _
      rw [hproj.2.1]
      show (glyphStringStage fs font gi st).ops = _
      rw [hstage, riseEmit]
    · show st5.string = [Tok.lt] ∨ _
      rw [hproj.1]
      show (glyphStringStage fs font gi st).string ++
          (if glyphKerning fs (widthStage fs font gi
              (glyphStringStage fs font gi st).caches).1 gi.width gi.x_offset ≠ 0
           then [Tok.gt, Tok.num (glyphKerning fs (widthStage fs font gi
              (glyphStringStage fs font gi st).caches).1 gi.width gi.x_offset : ℚ), Tok.lt]
           else []) = [Tok.lt] ∨ _
      rw [hstage]
      show [Tok.lt] ++ _ = [Tok.lt] ∨ _
      split
      · right
        exact ⟨_, rfl⟩
      · left
        rfl

/-- Raster color-glyph processing: a successful step on a png font with
a decodable blob appends exactly one EmojiDescriptor whose vertical
scale is the cached per-mille width over 1000 and whose horizontal
scale is the image aspect ratio times that. -/
theorem processGlyph_png {fs : ℚ} {font : FontInfo} {utf8Text : List ℕ}
    {st : EncState} {gi : GlyphIn} {pos : ℕ} {st' : EncState} {w h : ℕ}
    (hs : isSentinel gi.glyph = false) (hsvg : font.svg = false) (hpng : font.png = true)
    (hblob : gi.pngData = some (Blob.ok w h))
    (hok : processGlyph fs font utf8Text st (gi, pos) = .ok st') :
    ∃ cw : ℤ, st'.caches.widths font.hash gi.glyph = some cw ∧
      st'.emojis = st.emojis ++
        [⟨font.hash, gi.glyph, (w : ℚ) / (h : ℚ) * ((cw : ℚ) / 1000), (cw : ℚ) / 1000,
          st.x_advance, pngF fs gi⟩] := by
  by_cases hh : h = 0
  · exfalso
    subst hh
    simp only [processGlyph, hs, Bool.false_eq_true, if_false] at hok
    rw [show emojiStep fs font gi _ = .error () from by
      rw [emojiStep]; simp [hsvg, hpng, hblob]] at hok
    cases hok
  · simp only [processGlyph, hs, Bool.false_eq_true, if_false] at hok
    have hcw : (cmapStage font gi utf8Text pos
        (glyphStringStage fs font gi st).previous_utf8_position
        (widthStage fs font gi (glyphStringStage fs font gi st).caches).2).widths
          font.hash gi.glyph =
        some (widthStage fs font gi (glyphStringStage fs font gi st).caches).1 := by
      rw [cmapStage_widths]
      exact widthStage_hit fs font gi _
    rw [emojiStep_png hsvg hpng hblob hh hcw] at hok
    cases hok
    refine ⟨(widthStage fs font gi (glyphStringStage fs font gi st).caches).1, ?_, ?_⟩
    · exact hcw
    · show (glyphStringStage fs font gi st).emojis ++ _ = st.emojis ++ _
      rw [glyphStringStage_emojis, glyphStringStage_x_advance]

/-- Glyph processing aborts when a png font's blob for the glyph is
malformed: the decoder raises and nothing catches it. -/
theorem processGlyph_png_bad {fs : ℚ} {font : FontInfo} {utf8Text : List ℕ}
    {st : EncState} {gi : GlyphIn} {pos : ℕ}
    (hs : isSentinel gi.glyph = false) (hsvg : font.svg = false) (hpng : font.png = true)
    (hblob : gi.pngData = some Blob.bad) :
    processGlyph fs font utf8Text st (gi, pos) = .error () := by
  simp only [processGlyph, hs, Bool.false_eq_true, if_false]
  rw [emojiStep_png_bad hsvg hpng hblob]

/-- Glyph processing aborts when an svg font's blob for the glyph is
malformed. -/
theorem processGlyph_svg_bad {fs : ℚ} {font : FontInfo} {utf8Text : List ℕ}
    {st : EncState} {gi : GlyphIn} {pos : ℕ}
    (hs : isSentinel gi.glyph = false) (hsvg : font.svg = true)
    (hblob : gi.svgData = some Blob.bad) :
    processGlyph fs font utf8Text st (gi, pos) = .error () := by
  simp only [processGlyph, hs, Bool.false_eq_true, if_false]
  rw [emojiStep_svg_bad hsvg hblob]

/-- Python truncation toward zero moves a real by strictly less than 1. -/
theorem sub_pytrunc_lt_one (q : ℚ) : |q - (pytrunc q : ℚ)| < 1 := by
  rw [pytrunc]
  split
  next hq =>
    rw [abs_of_nonneg (sub_nonneg.mpr (Int.floor_le q))]
    have := Int.lt_floor_add_one q
    linarith
  next hq =>
    rw [abs_of_nonpos (sub_nonpos.mpr (Int.le_ceil q))]
    have := Int.ceil_lt_add_one q
    linarith

theorem entGet_entSet_same (d : Entries) (k : String) (v : PdfVal) :
    entGet (entSet d k v) k = some v := by
  induction d with
  | nil => simp [entSet, entGet]
  | cons p rest ih =>
    obtain ⟨k0, v0⟩ := p
    rw [entSet]
    split
    next h => rw [entGet]; simp
    next h => rw [entGet]; simp [h]; exact ih

theorem entGet_entSet_ne (d : Entries) (k k' : String) (v : PdfVal) (hne : k ≠ k') :
    entGet (entSet d k v) k' = entGet d k' := by
  induction d with
  | nil => simp [entSet, entGet, hne]
  | cons p rest ih =>
    obtain ⟨k0, v0⟩ := p
    rw [entSet]
    split
    next h =>
      subst h
      rw [entGet, entGet]
      simp [hne]
    next h =>
      rw [entGet, entGet]
      split <;> simp [ih]

/-- Setting a key other than Type does not change an object's type. -/
theorem typeIs_entSet (d : Entries) (k : String) (v : PdfVal) (s : String)
    (hk : k ≠ "Type") : typeIs (entSet d k v) s = typeIs d s := by
  rw [typeIs, typeIs, entGet_entSet_ne d k "Type" v hk]

/-- An object cannot be both an annotation and a file specification. -/
theorem typeIs_annot_filespec (d : Entries) (hA : typeIs d "/Annot" = true) :
    typeIs d "/Filespec" = false := by
  rw [typeIs] at hA ⊢
  revert hA
  cases hT : entGet d "Type" with
  | none => intro hA; exact Bool.noConfusion hA
  | some v => cases v <;> intro hA <;> simp_all

/-- Effect of the annotation pass on annotation dictionaries. -/
theorem mem_annotPass_annot {objs : List PdfObj} {d : Entries}
    (hmem : PdfObj.dict d ∈ annotPass objs) (hA : typeIs d "/Annot" = true) :
    entGet d "F" = some (PdfVal.int 4) := by
  rw [annotPass] at hmem
  obtain ⟨o, _, ho⟩ := List.mem_map.mp hmem
  cases o with
  | dict d0 =>
    rw [annotFix] at ho
    split at ho
    next h0 =>
      cases ho
      rw [entGet_entSet_same]
      norm_num
    next h0 =>
      cases ho
      rw [hA] at h0
      cases h0 rfl
  | arrObj items => simp [annotFix] at ho
  | nondict => simp [annotFix] at ho

/-- The annotation pass leaves non-annotation dictionaries unchanged. -/
theorem annotFix_of_not_annot {d : Entries} (hA : typeIs d "/Annot" = false) :
    annotFix (PdfObj.dict d) = PdfObj.dict d := by
  rw [annotFix]
  simp [hA]

/-- Specification of the Filespec pass: every file-specification
dictionary in its output carries the `AFRelationship` looked up from its
own `CheckSum`, and its reference was collected. -/
theorem filespecPass_spec {atts : List Attachment} :
    ∀ {objs : List PdfObj} {idx : ℕ} {objs' : List PdfObj} {refs : List PdfVal},
    filespecPass atts objs idx = .ok (objs', refs) →
    ∀ j d, objs'.get? j = some (PdfObj.dict d) → typeIs d "/Filespec" = true →
    ∃ cs, entGet d "CheckSum" = some cs ∧
      entGet d "AFRelationship" = some (PdfVal.name ("/" ++ relOf atts cs)) ∧
      PdfVal.ref (idx + j) ∈ refs := by
  intro objs
  induction objs with
  | nil =>
    intro idx objs' refs h j d hj _
    cases h
    simp at hj
  | cons o rest ih =>
    intro idx objs' refs h j d hj hF
    rw [filespecPass] at h
    split at h
    next => cases h
    next o' refs0 hfix =>
      split at h
      next => cases h
      next rest' refsR hrest =>
        cases h
        cases j with
        | zero =>
          simp only [List.get?_cons_zero, Option.some.injEq] at hj
          cases o with
          | dict d0 =>
            rw [filespecFix] at hfix
            split at hfix
            next hT0 =>
              split at hfix
              next => cases hfix
              next cs0 hcs0 =>
                cases hfix
                cases hj
                refine ⟨cs0, ?_, ?_, ?_⟩
                · rw [entGet_entSet_ne _ _ _ _ (by decide)]
                  exact hcs0
                · exact entGet_entSet_same _ _ _
                · simp
            next hT0 =>
              cases hfix
              cases hj
              rw [hF] at hT0
              cases hT0 rfl
          | arrObj items =>
            rw [filespecFix] at hfix
            cases hfix
            simp at hj
          | nondict =>
            rw [filespecFix] at hfix
            cases hfix
            simp at hj
        | succ j' =>
          simp only [List.get?_cons_succ] at hj
          obtain ⟨cs, h1, h2, h3⟩ := ih hrest j' d hj hF
          refine ⟨cs, h1, h2, ?_⟩
          have : idx + (j' + 1) = (idx + 1) + j' := by omega
          rw [this]
          exact List.mem_append_right _ h3

/-- The final object list produced by a successful `pdfa` run is the
annotation pass over some object list, followed by the metadata stream. -/
theorem pdfa_objects_shape {pdf : Pdf} {atts : List Attachment} {version : ℕ}
    {pdf' : Pdf} (h : pdfa pdf atts version = .ok pdf') :
    ∃ objs1 cat1, pdf' = ⟨entSet cat1 "Metadata" (PdfVal.ref ((annotPass objs1).length)),
      annotPass objs1 ++ [PdfObj.nondict]⟩ := by
  rw [pdfa] at h
  split at h
  next => cases h
  next objs1 cat1 heq =>
    cases h
    exact ⟨objs1, cat1, rfl⟩

/-- Anatomy of a successful attachment stage with version >= 2: the
Filespec pass succeeded, and whenever it collected any references the
resulting catalog's AF array contains them all. -/
theorem pdfaAF_spec {atts : List Attachment} {version : ℕ} {objects0 : List PdfObj}
    {catalog0 : Entries} {objs1 : List PdfObj} {cat1 : Entries} (hv : 2 ≤ version)
    (h : pdfaAF atts version objects0 catalog0 = .ok (objs1, cat1)) :
    ∃ refs, filespecPass atts objects0 0 = .ok (objs1, refs) ∧
      (refs ≠ [] → ∃ afl, entGet cat1 "AF" = some (PdfVal.arr afl) ∧
        ∀ r ∈ refs, r ∈ afl) := by
  rw [pdfaAF, if_pos hv] at h
  split at h
  next => cases h
  next emb hemb =>
    split at h
    next => cases h
    next A R hfs =>
      split at h
      next hempty =>
        cases h
        refine ⟨R, hfs, ?_⟩
        intro hne
        exfalso
        rw [List.isEmpty_iff] at hempty
        exact hne (List.append_eq_nil.mp hempty).2
      next hempty =>
        split at h
        next old hAF =>
          cases h
          refine ⟨R, hfs, ?_⟩
          intro _
          refine ⟨old ++ (emb ++ R), entGet_entSet_same _ _ _, ?_⟩
          intro r hr
          exact List.mem_append_right _ (List.mem_append_right _ hr)
        next hAF =>
          cases h
          refine ⟨R, hfs, ?_⟩
          intro _
          refine ⟨emb ++ R, entGet_entSet_same _ _ _, ?_⟩
          intro r hr
          exact List.mem_append_right _ hr
        next => cases h

/-- C1: for a given FontResource, `widths[g]` and `cmap[g]` are written
at most once and never overwritten: any entry present when the encoder
starts is present with the same value when it finishes, so the value
computed on the first encounter of a glyph is the one reused on every
subsequent encounter, within one draw and (since the final caches feed
the next draw's initial caches) across repeated draws against the same
FontResource. -/
theorem c1_cache_write_once (fs : ℚ) (utf8Text : List ℕ) (caches : FontCaches)
    (runs : List RunIn) (st' : EncState)
    (hok : encodeRuns fs utf8Text caches runs = .ok st') (h g : ℕ) :
    (∀ w, caches.widths h g = some w → st'.caches.widths h g = some w) ∧
    (∀ s, caches.cmap h g = some s → st'.caches.cmap h g = some s) := by
  have hp := encodeRuns_pres hok
  exact ⟨fun w hw => hp.1 h g w hw, fun s hs => hp.2 h g s hs⟩

theorem c1_cache_write_once_witness :
    caches1.widths 7 5 = some 500 ∧ c1Result.caches.widths 7 5 = some 500 :=
  ⟨rfl, (c1_cache_write_once 1 [65] caches1 [run1] c1Result rfl 7 5).1 500 rfl⟩

/-- C2: in explicit block-ellipsis mode, each pass of the truncation
loop produces a strictly shorter pre-ellipsis text than the previous
one, and the loop performs at most (initial word count) truncating
passes, stopping when the line fits or no word boundary exists. -/
theorem c2_truncation_monotone_bounded (ov : List Char → Bool) (e text : List Char) :
    List.Chain' (fun a b => (preEllipsis e b).length < (preEllipsis e a).length)
      (text :: truncSteps ov e text) ∧
    (truncSteps ov e text).length ≤ countWords (preEllipsis e text) := by
  obtain ⟨hlen, hchain⟩ := truncSteps_aux ov e text.length text le_rfl
  exact ⟨hchain, le_trans hlen (countEnds_le_countWords _)⟩

/-- C3 counterexample: a zero-rise run with one known glyph (declared
width 500 per-mille, raw advance 500 per-mille, x_offset 5) emits the
kerning adjustment 5, and 500 - 5 differs from 500 by more than 1 unit:
the claimed identity omits the horizontal positioning offsets. -/
theorem c3_width_conservation_counterexample :
    c3Result.caches.widths 7 1 = some 500 ∧
    rawAdvancePm 1 512 = 500 ∧
    c3Result.ops = [Op.setFontSize 7 1,
      Op.showText [Tok.lt, Tok.gt, Tok.num (-5), Tok.lt, Tok.hex 1 false,
        Tok.gt, Tok.num 5]] ∧
    ¬ |(500 : ℚ) - 5 - 500| ≤ 1 := by
  refine ⟨by with_unfolding_all rfl, ?_, by with_unfolding_all rfl, ?_⟩
  · norm_num [rawAdvancePm, units_to_double]
  · norm_num

/-- C3 amended: per glyph, the cached declared width plus the glyph's
horizontal positioning offset minus the emitted kerning adjustment
equals the raw shaped advance in per-mille units to within strictly one
unit (the truncation error of the one `int()` call); summing over a run
therefore conserves width to within one unit per glyph, with offsets
included. -/
theorem c3_width_conservation_amended (fs : ℚ) (cw gw xo : ℤ) :
    |((cw : ℚ) + (xo : ℚ) / fs - (glyphKerning fs cw gw xo : ℚ)) - rawAdvancePm fs gw|
      < 1 := by
  rw [glyphKerning]
  have h := sub_pytrunc_lt_one ((cw : ℚ) - rawAdvancePm fs gw + (xo : ℚ) / fs)
  have he : ((cw : ℚ) + (xo : ℚ) / fs -
      (pytrunc ((cw : ℚ) - rawAdvancePm fs gw + (xo : ℚ) / fs) : ℚ)) - rawAdvancePm fs gw =
      ((cw : ℚ) - rawAdvancePm fs gw + (xo : ℚ) / fs) -
      (pytrunc ((cw : ℚ) - rawAdvancePm fs gw + (xo : ℚ) / fs) : ℚ) := by ring
  rw [he]
  exact h

/-- C4 counterexample: for a glyph with y_offset 1000 the emitted
rise-set operator carries the value -1 (the y_offset negated and divided
by 1000), not the glyph's y_offset 1000. -/
theorem c4_rise_isolation_counterexample :
    c4Result.ops = [Op.showText [], Op.setTextRise (-1),
      Op.showText [Tok.lt, Tok.hex 1 false, Tok.gt], Op.setTextRise 0] ∧
    (-1 : ℚ) ≠ 1000 := by
  exact ⟨by with_unfolding_all rfl, by norm_num⟩

/-- C4 amended: every non-sentinel glyph with nonzero y_offset is
emitted as a standalone show operation bracketed by a rise-set
immediately before and a rise-reset(0) immediately after, with the
pending batch flushed first and a fresh batch started after; the rise
value used is the glyph's y_offset negated and divided by 1000 — in
particular it is not scaled by the font size — and no batched show
string spans the rise change. -/
theorem c4_rise_isolation_amended (fs : ℚ) (font : FontInfo) (utf8Text : List ℕ)
    (st : EncState) (gi : GlyphIn) (pos : ℕ) (st' : EncState)
    (hs : isSentinel gi.glyph = false) (hy : gi.y_offset ≠ 0)
    (h : processGlyph fs font utf8Text st (gi, pos) = .ok st') :
    st'.ops = st.ops ++
      [Op.showText (riseFlush st.string),
       Op.setTextRise (-((gi.y_offset : ℚ) / 1000)),
       Op.showText ((if (gi.x_offset : ℚ) / fs ≠ 0
           then [Tok.num (-((gi.x_offset : ℚ) / fs))] else []) ++
         [Tok.lt, Tok.hex gi.glyph font.bitmap, Tok.gt]),
       Op.setTextRise 0] ∧
    (st'.string = [Tok.lt] ∨ ∃ q, st'.string = [Tok.lt, Tok.gt, Tok.num q, Tok.lt]) :=
  processGlyph_rise hs hy h

theorem c4_rise_isolation_witness :
    c4Result.ops = st0.ops ++
      [Op.showText (riseFlush st0.string),
       Op.setTextRise (-((gi4.y_offset : ℚ) / 1000)),
       Op.showText ((if (gi4.x_offset : ℚ) / 1 ≠ 0
           then [Tok.num (-((gi4.x_offset : ℚ) / 1))] else []) ++
         [Tok.lt, Tok.hex gi4.glyph font7.bitmap, Tok.gt]),
       Op.setTextRise 0] ∧
    (c4Result.string = [Tok.lt] ∨
      ∃ q, c4Result.string = [Tok.lt, Tok.gt, Tok.num q, Tok.lt]) :=
  c4_rise_isolation_amended 1 font7 [65] st0 gi4 1 c4Result (by decide) (by decide) rfl

/-- C5 counterexample: a sentinel glyph with advance width 2048 at font
size 2 gets the adjustment -1024 = -(2048 / 2), not the negated advance
width -2048. -/
theorem c5_sentinel_counterexample :
    c5Result.string = [Tok.lt, Tok.gt, Tok.num (-1024), Tok.lt] ∧
    (-1024 : ℚ) ≠ -2048 := by
  exact ⟨by with_unfolding_all rfl, by norm_num⟩

/-- C5 amended: for every glyph equal to the "no visible glyph" sentinel
(including the unknown-glyph flag) the encoder appends a pure bracketed
horizontal adjustment equal to the negative of the glyph's advance
width divided by the font size, emits no glyph code, and changes
nothing else — in particular it neither reads nor writes the font's
widths and cmap caches. -/
theorem c5_sentinel_amended (fs : ℚ) (font : FontInfo) (utf8Text : List ℕ)
    (st : EncState) (gi : GlyphIn) (pos : ℕ) (hs : isSentinel gi.glyph = true) :
    processGlyph fs font utf8Text st (gi, pos) =
      .ok { st with string :=
        st.string ++ [Tok.gt, Tok.num (-(gi.width : ℚ) / fs), Tok.lt] } :=
  processGlyph_sentinel fs font utf8Text st gi pos hs

theorem c5_sentinel_witness :
    processGlyph 2 font7 [] st0 (gi5, 0) =
      .ok { st0 with string :=
        st0.string ++ [Tok.gt, Tok.num (-(gi5.width : ℚ) / 2), Tok.lt] } :=
  c5_sentinel_amended 2 font7 [] st0 gi5 0 (by decide)

/-- C6: drawing a textbox that is not visible, or whose text is empty or
all-whitespace, or whose (positive) font size is below pydyf's
representable precision 1e-6, succeeds as a silent no-op: no show-text
operator is emitted and the emoji descriptor list handed to the
compositing pass is empty.  (A zero font size is excluded: the spec's
textbox invariant requires a positive size, and `draw_text`'s leading
assert makes zero an internal fault, not a no-op.) -/
theorem c6_silent_noop (tb : TextBox) (offsetX : ℚ) (utf8Text : List ℕ)
    (runs : List RunIn) (caches : FontCaches) (hfs : 0 < tb.fontSize)
    (hcase : tb.visibility ≠ "visible" ∨ tb.text.all Char.isWhitespace = true ∨
      tb.fontSize < 1/1000000) :
    ∃ ops caches', draw_text tb offsetX utf8Text runs caches = .ok (ops, [], caches') ∧
      ops.all (fun op => !op.isShow) = true := by
  have hfs0 : ¬ tb.fontSize = 0 := ne_of_gt hfs
  by_cases hv : tb.visibility ≠ "visible"
  · refine ⟨[], caches, ?_, rfl⟩
    rw [draw_text, if_neg hfs0, if_pos hv]
  · push_neg at hv
    have hws : tb.text.all Char.isWhitespace = true ∨ tb.fontSize < 1/1000000 := by
      rcases hcase with h | h | h
      · exact absurd hv h
      · exact Or.inl h
      · exact Or.inr h
    have hfl : draw_first_line tb
        [1, 0, 0, -1, tb.positionX, tb.positionY + tb.baseline] utf8Text runs caches =
        .ok ([], [], caches) := by
      rw [draw_first_line]
      rcases hws with h | h
      · rw [if_pos h]
      · by_cases hall : tb.text.all Char.isWhitespace = true
        · rw [if_pos hall]
        · rw [if_neg hall, if_pos h]
    have hdt : draw_text tb offsetX utf8Text runs caches =
        .ok (((if tb.decorOverline then
            [draw_text_decoration tb offsetX
              (tb.baseline - tb.ascent + tb.underlineThickness / 2)
              tb.underlineThickness tb.decorationColor] else []) ++
          (if tb.decorUnderline then
            [draw_text_decoration tb offsetX
              (tb.baseline - tb.underlinePosition + tb.underlineThickness / 2)
              tb.underlineThickness tb.decorationColor] else []) ++
          [Op.setColorRGB tb.color.r tb.color.g tb.color.b,
           Op.setAlpha tb.color.a, Op.beginText]) ++
          [] ++
          (Op.endText :: draw_emojis tb.fontSize tb.positionX
              (tb.positionY + tb.baseline) [] ++
            (if tb.decorLineThrough then
              [draw_text_decoration tb offsetX
                (tb.baseline - tb.strikethroughPosition)
                tb.strikethroughThickness tb.decorationColor] else [])),
          [], caches) := by
      rw [draw_text, if_neg hfs0, if_neg (by simp [hv] : ¬ tb.visibility ≠ "visible")]
      simp only [hfl]
    refine ⟨_, caches, hdt, ?_⟩
    split_ifs <;> simp [Op.isShow, draw_text_decoration, draw_emojis]

theorem c6_silent_noop_witness :
    (0 : ℚ) < tb6.fontSize ∧ tb6.fontSize < 1/1000000 ∧
    ∃ ops caches', draw_text tb6 0 [] [] emptyCaches = .ok (ops, [], caches') ∧
      ops.all (fun op => !op.isShow) = true :=
  ⟨by norm_num [tb6], by norm_num [tb6],
   c6_silent_noop tb6 0 [] [] emptyCaches (by norm_num [tb6])
     (Or.inr (Or.inr (by norm_num [tb6])))⟩

/-- C7 counterexample: a run over a raster color font whose glyph blob
is malformed makes the whole line draw abort with an error — the
decoder's exception propagates; nothing is emitted and the glyph's
pending text-show code is lost, contradicting the claim that the draw
is not aborted. -/
theorem c7_malformed_image_counterexample :
    encodeRuns 1 [65] emptyCaches [runBad] = .error () ∧
    draw_first_line tb7 [1, 0, 0, -1, 0, 0] [65] [runBad] emptyCaches = .error () := by
  exact ⟨by with_unfolding_all rfl, by with_unfolding_all rfl⟩

/-- C7 amended: malformed embedded color-glyph image data aborts the
draw of the line: the decoder raises (`ElementTree.fromstring` for svg
fonts, `PIL.Image.open` for png fonts), no handler exists in the
encoder, so processing the glyph fails; no EmojiDescriptor is emitted,
and the glyph's text-show code, still in the unflushed batch, is never
shown. -/
theorem c7_malformed_image_amended (fs : ℚ) (font : FontInfo) (utf8Text : List ℕ)
    (st : EncState) (gi : GlyphIn) (pos : ℕ) (hs : isSentinel gi.glyph = false)
    (hbad : (font.svg = true ∧ gi.svgData = some Blob.bad) ∨
      (font.svg = false ∧ font.png = true ∧ gi.pngData = some Blob.bad)) :
    processGlyph fs font utf8Text st (gi, pos) = .error () := by
  rcases hbad with ⟨h1, h2⟩ | ⟨h1, h2, h3⟩
  · exact processGlyph_svg_bad hs h1 h2
  · exact processGlyph_png_bad hs h1 h2 h3

theorem c7_malformed_image_witness :
    processGlyph 1 fontPng [65] st0 (giBad, 1) = .error () :=
  c7_malformed_image_amended 1 fontPng [65] st0 giBad 1 (by decide)
    (Or.inr ⟨rfl, rfl, rfl⟩)

/-- C8: for a glyph of a raster color font with a decodable embedded
image, the emitted EmojiDescriptor's vertical scale equals the glyph's
cached per-mille width divided by 1000, and its horizontal scale equals
the image's width/height aspect ratio times that vertical scale. -/
theorem c8_raster_scales (fs : ℚ) (font : FontInfo) (utf8Text : List ℕ)
    (st : EncState) (gi : GlyphIn) (pos : ℕ) (st' : EncState) (w h : ℕ)
    (hs : isSentinel gi.glyph = false) (hsvg : font.svg = false)
    (hpng : font.png = true) (hblob : gi.pngData = some (Blob.ok w h))
    (hok : processGlyph fs font utf8Text st (gi, pos) = .ok st') :
    ∃ cw : ℤ, st'.caches.widths font.hash gi.glyph = some cw ∧
      st'.emojis = st.emojis ++
        [⟨font.hash, gi.glyph, (w : ℚ) / (h : ℚ) * ((cw : ℚ) / 1000),
          (cw : ℚ) / 1000, st.x_advance, pngF fs gi⟩] :=
  processGlyph_png hs hsvg hpng hblob hok

theorem c8_raster_scales_witness :
    (∃ cw : ℤ, c8Result.caches.widths fontPng.hash giPng.glyph = some cw ∧
      c8Result.emojis = st0.emojis ++
        [⟨fontPng.hash, giPng.glyph, (200 : ℚ) / (100 : ℚ) * ((cw : ℚ) / 1000),
          (cw : ℚ) / 1000, st0.x_advance, pngF 1 giPng⟩]) ∧
    c8Result.emojis = [⟨9, 1, 2, 1, 0, -1⟩] ∧ (2 : ℚ) = 2 * 1 :=
  ⟨c8_raster_scales 1 fontPng [65] st0 giPng 1 c8Result 200 100 (by decide) rfl rfl rfl
     (by with_unfolding_all rfl),
   by with_unfolding_all rfl, by norm_num⟩

/-- C9: after the PDF/A finalizer runs, every PDF object that is a
dictionary with Type `/Annot` has its flags entry F set to 4 (bit 3,
the print flag), for every version variant -- the annotation pass runs
outside the version check. -/
theorem c9_annot_print_flag (pdf : Pdf) (atts : List Attachment) (version : ℕ)
    (pdf' : Pdf) (h : pdfa pdf atts version = .ok pdf') (d : Entries)
    (hmem : PdfObj.dict d ∈ pdf'.objects) (hA : typeIs d "/Annot" = true) :
    entGet d "F" = some (PdfVal.int 4) := by
  obtain ⟨objs1, cat1, rfl⟩ := pdfa_objects_shape h
  rcases List.mem_append.mp hmem with hm | hm
  · exact mem_annotPass_annot hm hA
  · simp at hm

theorem c9_annot_print_flag_witness : entGet d9F "F" = some (PdfVal.int 4) :=
  c9_annot_print_flag p9 [] 1 pdf9 rfl d9F (List.Mem.head _) rfl

/-- C10: with version >= 2, every `/Filespec` dictionary in the
finalized document carries an `AFRelationship` entry equal to `/` plus
the relationship of the document attachment whose md5 hash equals the
object's CheckSum (or `/Unspecified` when none matches), and the
object's reference is in the catalog's AF array. -/
theorem c10_filespec_af (pdf : Pdf) (atts : List Attachment) (version : ℕ)
    (pdf' : Pdf) (hv : 2 ≤ version) (h : pdfa pdf atts version = .ok pdf')
    (i : ℕ) (d : Entries) (hi : pdf'.objects.get? i = some (PdfObj.dict d))
    (hF : typeIs d "/Filespec" = true) :
    ∃ cs, entGet d "CheckSum" = some cs ∧
      entGet d "AFRelationship" = some (PdfVal.name ("/" ++ relOf atts cs)) ∧
      ∃ afl, entGet pdf'.catalog "AF" = some (PdfVal.arr afl) ∧ PdfVal.ref i ∈ afl := by
  rw [pdfa] at h
  split at h
  next => cases h
  next objs1 cat1 heq =>
    cases h
    obtain ⟨refs, hfs, haf⟩ := pdfaAF_spec hv heq
    dsimp only at hi
    have hi2 : (annotPass objs1).get? i = some (PdfObj.dict d) := by
      rcases Nat.lt_or_ge i (annotPass objs1).length with hl | hg
      · rwa [List.get?_append hl] at hi
      · exfalso
        rw [List.get?_append_right hg] at hi
        cases hsub : i - (annotPass objs1).length with
        | zero => rw [hsub] at hi; simp at hi
        | succ n => rw [hsub] at hi; simp at hi
    rw [annotPass, List.get?_map] at hi2
    cases ho : objs1.get? i with
    | none => rw [ho] at hi2; cases hi2
    | some o0 =>
      rw [ho] at hi2
      simp only [Option.map_some', Option.some.injEq] at hi2
      cases o0 with
      | dict d1 =>
        by_cases hA : typeIs d1 "/Annot" = true
        · exfalso
          rw [annotFix, if_pos hA] at hi2
          have hd : d = entSet d1 "F" (PdfVal.int (2 ^ (3 - 1))) := by
            injection hi2 with h'
            exact h'.symm
          rw [hd, typeIs_entSet d1 "F" _ _ (by decide)] at hF
          have hfalse := typeIs_annot_filespec d1 hA
          rw [hF] at hfalse
          cases hfalse
        · rw [annotFix, if_neg (by simpa using hA)] at hi2
          have hd : d = d1 := by
            injection hi2 with h'
            exact h'.symm
          subst hd
          obtain ⟨cs, h1, h2, h3⟩ := filespecPass_spec hfs i d ho hF
          have hne : refs ≠ [] := by
            intro hemp
            rw [hemp] at h3
            simp at h3
          obtain ⟨afl, hafl, hsubr⟩ := haf hne
          refine ⟨cs, h1, h2, afl, ?_, ?_⟩
          · show entGet (entSet cat1 "Metadata" _) "AF" = _
            rw [entGet_entSet_ne _ _ _ _ (by decide)]
            exact hafl
          · have hmem := hsubr _ h3
            simpa using hmem
      | arrObj items =>
        rw [annotFix] at hi2
        simp at hi2
      | nondict =>
        rw [annotFix] at hi2
        simp at hi2

theorem c10_filespec_af_witness :
    (∃ cs, entGet dFS2 "CheckSum" = some cs ∧
      entGet dFS2 "AFRelationship" = some (PdfVal.name ("/" ++ relOf atts10 cs)) ∧
      ∃ afl, entGet pdf10.catalog "AF" = some (PdfVal.arr afl) ∧ PdfVal.ref 0 ∈ afl) ∧
    entGet dFS2 "AFRelationship" = some (PdfVal.name "/Source") :=
  ⟨c10_filespec_af p10 atts10 2 pdf10 (by norm_num) rfl 0 dFS2 rfl rfl, rfl⟩
